import Mathlib

/-!
Shallow embedding of the subtitle/rendering utilities of the
whisper-webui-diarisation repository (`src/utils.py` and the result
accumulation loop of `app.py`), together with theorems settling the
frozen claims about them.

Conventions of the embedding:
* Python `float` seconds values are modelled as exact rationals (`ℚ`);
  `round` is Python's round-half-to-even.
* Python strings are modelled as Lean `String` / `List Char`; the string
  predicates (`str.strip`, `\s`, `str.lower`, `\w`) are modelled on the
  ASCII range, which covers every input the theorems mention.
* `os.linesep` is modelled as `"\n"` (the POSIX value).
* Fallible code (a raised exception) is modelled with `Except`.
-/

attribute [local semireducible] Rat.ofScientific Rat.mul Rat.add Rat.sub Rat.inv

/-- Python `string.whitespace` membership: the six ASCII whitespace
characters used by `str.strip()`, `textwrap` and `re` `\s` on ASCII text. -/
def isPySpace (c : Char) : Bool :=
  c = ' ' ∨ c = '\t' ∨ c = '\n' ∨ c = '\x0b' ∨ c = '\x0c' ∨ c = '\r'

/-- Python `str.strip()` on a character list: drop whitespace from both ends. -/
def pyStripList (l : List Char) : List Char :=
  ((l.dropWhile isPySpace).reverse.dropWhile isPySpace).reverse

/-- Python `str.strip()`. -/
def pyStrip (s : String) : String :=
  String.mk (pyStripList s.data)

/-- Auxiliary scanner for Python `str.replace`: leftmost, non-overlapping
replacement of `pat` by `rep`.  The fuel argument is the length of the
scanned list, which bounds the recursion (every step consumes at least one
character when `pat` is non-empty, the only case the repository uses). -/
def replaceAux (pat rep : List Char) : Nat → List Char → List Char
  | 0, l => l
  | _ + 1, [] => []
  | fuel + 1, c :: cs =>
      if pat.isPrefixOf (c :: cs) then
        rep ++ replaceAux pat rep fuel ((c :: cs).drop pat.length)
      else
        c :: replaceAux pat rep fuel cs

/-- Python `s.replace(pat, rep)` for a non-empty pattern. -/
def pyReplace (s pat rep : String) : String :=
  String.mk (replaceAux pat.data rep.data s.data.length s.data)

/-- Floor of a rational, computed with `Int.fdiv` so that it evaluates by
kernel reduction (the `FloorRing` instance of `ℚ` does not). -/
def ratFloor (q : ℚ) : ℤ :=
  Int.fdiv q.num q.den

/-- Python round-half-to-even (`round(x)`) on an exact rational. -/
def pyRound (q : ℚ) : ℤ :=
  let f := ratFloor q
  let r := q - (f : ℚ)
  if r < mkRat 1 2 then f
  else if mkRat 1 2 < r then f + 1
  else if f % 2 = 0 then f else f + 1

/-- Python `f"{n:0wd}"` for a non-negative integer: decimal digits padded
with leading zeros to at least `w` characters. -/
def padNum (w : Nat) (n : Nat) : String :=
  let s := toString n
  String.mk (List.replicate (w - s.length) '0') ++ s

/-- The hours/minutes/seconds/milliseconds decomposition of
`format_timestamp` (`src/utils.py` lines 41-48): repeated integer division
with carries, starting from a total number of milliseconds. -/
def tsParts (msTotal : Nat) : Nat × Nat × Nat × Nat :=
  let hours := msTotal / 3600000
  let rem1 := msTotal - hours * 3600000
  let minutes := rem1 / 60000
  let rem2 := rem1 - minutes * 60000
  let seconds := rem2 / 1000
  let ms := rem2 - seconds * 1000
  (hours, minutes, seconds, ms)

/-- `format_timestamp(seconds, always_include_hours, fractionalSeperator)`
from `src/utils.py`.  The source asserts `seconds >= 0`; on that domain
`Int.toNat` of the rounded millisecond count is exact. -/
def formatTimestamp (seconds : ℚ) (alwaysIncludeHours : Bool)
    (fractionalSeperator : String) : String :=
  let msTotal := (pyRound (seconds * 1000)).toNat
  let p := tsParts msTotal
  let hoursMarker := if alwaysIncludeHours ∨ 0 < p.1 then padNum 2 p.1 ++ ":" else ""
  hoursMarker ++ padNum 2 p.2.1 ++ ":" ++ padNum 2 p.2.2.1 ++
    fractionalSeperator ++ padNum 3 p.2.2.2

/-- One entry of the word list handed to `__join_words`
(`src/utils.py` lines 336-343): the rendered word and the display length
used for the width budget.  A plain string entry is `⟨s, s.length⟩`; a dict
entry carries an explicit `length` field. -/
structure WEntry where
  word : String
  length : Nat
  deriving DecidableEq, Repr

/-- The greedy line-packing loop of `__join_words` (`src/utils.py` lines
332-357): start a new line when the accumulated display length would exceed
the budget and the current line is non-empty; words are appended to the
line by direct concatenation; a final line is kept only when the
accumulated string is non-empty. -/
def joinGreedy (w : Int) : List String → String → Nat → List WEntry → List String
  | lines, curLine, _, [] =>
      if 0 < curLine.length then lines ++ [curLine] else lines
  | lines, curLine, curLen, e :: rest =>
      if 0 < curLen ∧ w < ((curLen + e.length : Nat) : Int) then
        joinGreedy w (lines ++ [curLine]) e.word e.length rest
      else
        joinGreedy w lines (curLine ++ e.word) (curLen + e.length) rest

/-- `__join_words(words, maxLineWidth)` from `src/utils.py` lines 328-357.
When the budget is `None` or negative the source returns
`" ".join(words)`.  (With dict entries Python would raise `TypeError` in
that branch; the repository only reaches it with plain string lists, and no
theorem below relies on the branch for dict-shaped entries.) -/
def joinEntries (entries : List WEntry) (maxLineWidth : Option Int) : String :=
  match maxLineWidth with
  | none => " ".intercalate (entries.map (·.word))
  | some w =>
      if w < 0 then " ".intercalate (entries.map (·.word))
      else "\n".intercalate (joinGreedy w [] "" 0 entries)

/-- A plain string word list as `WEntry` values (the `isinstance` string
branch of `__join_words`). -/
def strEntries (ws : List String) : List WEntry :=
  ws.map fun s => ⟨s, s.length⟩

/-- `__join_words` applied to a plain string list. -/
def joinWords (ws : List String) (maxLineWidth : Option Int) : String :=
  joinEntries (strEntries ws) maxLineWidth

/-- The effect of `re.sub(r"^(\s*)(.*)$", r"\1<u>\2</u>", word)`
(`src/utils.py` line 301) on a newline-free word: the emphasis tags wrap
the part of the word after its leading whitespace. -/
def markWord (word : String) : String :=
  String.mk (word.data.takeWhile isPySpace) ++ "<u>" ++
    String.mk (word.data.dropWhile isPySpace) ++ "</u>"

/-- The highlighted entry list built for cue `i` (`src/utils.py` lines
299-308): word `i` is rendered with emphasis markup while its recorded
display length stays `len(word)`, the length of the original word. -/
def hlEntries (textWords : List String) (i : Nat) : List WEntry :=
  textWords.enum.map fun p => ⟨if p.1 = i then markWord p.2 else p.2, p.2.length⟩

/-- Specification-side mirror of `joinGreedy` that keeps each line as the
list of words placed on it instead of their concatenation; used to state
which words share a line. -/
def greedyGroups (w : Int) : List (List String) → List String → Nat → List WEntry →
    List (List String)
  | groups, curGroup, _, [] =>
      if 0 < (String.join curGroup).length then groups ++ [curGroup] else groups
  | groups, curGroup, curLen, e :: rest =>
      if 0 < curLen ∧ w < ((curLen + e.length : Nat) : Int) then
        greedyGroups w (groups ++ [curGroup]) [e.word] e.length rest
      else
        greedyGroups w groups (curGroup ++ [e.word]) (curLen + e.length) rest

/-- The per-line word groups produced by the greedy packing of
`__join_words` for a given entry list. -/
def greedyLines (w : Int) (entries : List WEntry) : List (List String) :=
  greedyGroups w [] [] 0 entries

/-- Column-tracking helper for Python `str.expandtabs(4)`: a tab advances
the column to the next multiple of the tab size, a line break resets it. -/
def expandTabsAux (tabsize : Nat) : Nat → List Char → List Char
  | _, [] => []
  | col, c :: cs =>
      if c = '\t' then
        let pad := tabsize - col % tabsize
        List.replicate pad ' ' ++ expandTabsAux tabsize (col + pad) cs
      else if c = '\n' ∨ c = '\r' then c :: expandTabsAux tabsize 0 cs
      else c :: expandTabsAux tabsize (col + 1) cs

/-- Python `str.expandtabs(4)`, the first step of `textwrap.wrap` with
`tabsize=4` as called by `process_text`. -/
def expandTabs (l : List Char) : List Char :=
  expandTabsAux 4 0 l

/-- The `replace_whitespace` step of `textwrap.wrap`: every ASCII
whitespace character becomes a plain space. -/
def replaceWs (l : List Char) : List Char :=
  l.map fun c => if isPySpace c then ' ' else c

/-- Accumulator-style splitter of a text into maximal runs of whitespace
and of non-whitespace characters.  This models the chunking of
`textwrap.TextWrapper._split`; the sub-splitting of hyphenated words is
omitted (it only moves break points inside hyphenated words and is
irrelevant to every statement below, whose inputs either fit on one line
or are hyphen-free). -/
def splitChunksAux : List Char → List Char → List (List Char)
  | cur, [] => if cur.isEmpty then [] else [cur.reverse]
  | cur, c :: cs =>
      match cur with
      | [] => splitChunksAux [c] cs
      | d :: _ =>
          if isPySpace c = isPySpace d then splitChunksAux (c :: cur) cs
          else cur.reverse :: splitChunksAux [c] cs

/-- Chunking of a text for `textwrap.wrap`. -/
def splitChunks (l : List Char) : List (List Char) :=
  splitChunksAux [] l

/-- A chunk that Python `chunk.strip() == ''` classifies as whitespace. -/
def isWsChunk (l : List Char) : Bool :=
  l.all isPySpace

/-- The inner greedy loop of `textwrap.TextWrapper._wrap_chunks`: take
chunks onto the current line while they fit the width.  Returns the line,
its length and the remaining chunks. -/
def innerFill (w : Int) : Nat → List (List Char) → List (List Char) × Nat × List (List Char)
  | curLen, [] => ([], curLen, [])
  | curLen, c :: rest =>
      if ((curLen + c.length : Nat) : Int) ≤ w then
        let r := innerFill w (curLen + c.length) rest
        (c :: r.1, r.2.1, r.2.2)
      else ([], curLen, c :: rest)

/-- Python `chunk.rfind('-', 0, bound)`: index of the rightmost dash among
the first `bound` characters, if any. -/
def rfindDash (l : List Char) (bound : Nat) : Option Nat :=
  (((l.take bound).enum.filter fun p => p.2 = '-').getLast?).map (·.1)

/-- `textwrap.TextWrapper._handle_long_word` with the default settings
(`break_long_words=True`, `break_on_hyphens=True`): split a chunk longer
than the whole width at the remaining space, preferring a break after the
last fitting hyphen of a hyphenated word. -/
def handleLongWord (w : Int) (curLen : Nat) (chunk : List Char) : List Char × List Char :=
  let spaceLeft : Int := if w < 1 then 1 else w - curLen
  let sl : Nat := spaceLeft.toNat
  let endIdx : Nat :=
    if spaceLeft < (chunk.length : Int) then
      match rfindDash chunk sl with
      | some h =>
          if 0 < h ∧ (chunk.take h).any (fun c => c ≠ '-') then h + 1 else sl
      | none => sl
    else sl
  (chunk.take endIdx, chunk.drop endIdx)

/-- The outer loop of `textwrap.TextWrapper._wrap_chunks` with the default
settings of `textwrap.wrap`: drop a leading whitespace chunk on every line
but the first, fill greedily, break an over-long chunk, drop a trailing
whitespace chunk, and keep the line when non-empty.  The fuel argument
bounds the recursion; every iteration consumes at least one character or
chunk when `0 < w` (Python raises `ValueError` for `w ≤ 0` before
looping, a case no statement below reaches). -/
def wrapOuter (w : Int) : Nat → Bool → List (List Char) → List (List Char)
  | 0, _, _ => []
  | _ + 1, _, [] => []
  | fuel + 1, first, c :: cs =>
      let chunks := if ¬first ∧ isWsChunk c then cs else c :: cs
      let r := innerFill w 0 chunks
      let p : List (List Char) × List (List Char) :=
        match r.2.2 with
        | d :: ds =>
            if w < (d.length : Int) then
              let q := handleLongWord w r.2.1 d
              (r.1 ++ [q.1], q.2 :: ds)
            else (r.1, d :: ds)
        | [] => (r.1, [])
      let line := match p.1.getLast? with
        | some lastChunk => if isWsChunk lastChunk then p.1.dropLast else p.1
        | none => p.1
      if line.isEmpty then wrapOuter w fuel false p.2
      else line.flatten :: wrapOuter w fuel false p.2

/-- `textwrap.wrap(text, width=w, tabsize=4)` with otherwise default
settings, as invoked by `process_text`. -/
def pyWrap (text : List Char) (w : Int) : List (List Char) :=
  let chunks := splitChunks (replaceWs (expandTabs text))
  wrapOuter w ((chunks.map List.length).sum + chunks.length + 1) true chunks

/-- `process_text(text, maxLineWidth)` from `src/utils.py` lines 359-364:
return the text unchanged without a budget, otherwise wrap it and join the
lines with a line break. -/
def processText (text : String) (maxLineWidth : Option Int) : String :=
  match maxLineWidth with
  | none => text
  | some w =>
      if w < 0 then text
      else "\n".intercalate ((pyWrap text.data w).map String.mk)

/-- A per-word timing entry of a segment (`segment['words']`): start and
end time in seconds and the rendered word.  The Python `end` key is called
`stop` here because `end` is a Lean keyword. -/
structure TimedWord where
  start : ℚ
  stop : ℚ
  word : String
  deriving DecidableEq, Repr

/-- A cue yielded by `__subtitle_preprocessor_iterator`: a start and end
time and the text displayed in between. -/
structure Cue where
  start : ℚ
  stop : ℚ
  text : String
  deriving DecidableEq, Repr

/-- A transcription segment as consumed by the rendering path: time span,
text, optional per-word timings and the optional `longest_speaker` label
added by the diarization merger. -/
structure Segment where
  start : ℚ
  stop : ℚ
  text : String
  words : List TimedWord
  longestSpeaker : Option String
  deriving DecidableEq, Repr

/-- The `maxLineWidth is None or maxLineWidth < 0` test of
`src/utils.py`. -/
def noWidth : Option Int → Bool
  | none => true
  | some w => w < 0

/-- The word loop of the highlight branch of
`__subtitle_preprocessor_iterator` (`src/utils.py` lines 280-318),
parameterized by the running position `last` and word index: before each
word a catch-up cue with the plain subtitle text when `last` differs from
the word's start, then a cue highlighting the word, and after the loop a
final catch-up cue up to the segment end when needed. -/
def hlLoopGo (textWords : List String) (maxLineWidth : Option Int) (subText : String)
    (subStop : ℚ) : ℚ → Nat → List TimedWord → List Cue
  | last, _, [] => if last ≠ subStop then [⟨last, subStop, subText⟩] else []
  | last, i, wrd :: rest =>
      (if last ≠ wrd.start then [⟨last, wrd.start, subText⟩] else []) ++
      ⟨wrd.start, wrd.stop, joinEntries (hlEntries textWords i) maxLineWidth⟩ ::
      hlLoopGo textWords maxLineWidth subText subStop wrd.stop (i + 1) rest

/-- One step of `__subtitle_preprocessor_iterator` (`src/utils.py` lines
238-326).  Besides the emitted cues it returns the segment as it is left
after the step: Python's `words.insert(0, ...)` operates on the same list
object stored in `segment['words']`, so a present speaker label prepends
the pseudo-word to the segment itself. -/
def preprocessSegment (seg : Segment) (maxLineWidth : Option Int) (highlightWords : Bool) :
    List Cue × Segment :=
  if seg.words.isEmpty then
    if noWidth maxLineWidth && seg.longestSpeaker.isNone then
      ([⟨seg.start, seg.stop, seg.text⟩], seg)
    else
      let t := pyStrip seg.text
      let t := match seg.longestSpeaker with
        | some sp => "(" ++ sp ++ ") " ++ t
        | none => t
      ([⟨seg.start, seg.stop, processText t maxLineWidth⟩], seg)
  else
    let words := match seg.longestSpeaker with
      | some sp => ⟨seg.start, seg.start, "(" ++ sp ++ ")"⟩ :: seg.words
      | none => seg.words
    let seg1 := { seg with words := words }
    let textWords := words.map (·.word)
    let subtitleText := joinWords textWords maxLineWidth
    if highlightWords then
      (hlLoopGo textWords maxLineWidth subtitleText seg.stop seg.start 0 words, seg1)
    else
      ([⟨seg.start, seg.stop, subtitleText⟩], seg1)

/-- Decidable check that a cue list tiles the span from `a` to `b`: each
cue starts where the previous one ended, never runs backwards, and the
last one ends at `b`. -/
def tilesFromB (a : ℚ) : List Cue → ℚ → Bool
  | [], b => a == b
  | c :: cs, b => (c.start == a) && decide (c.start ≤ c.stop) && tilesFromB c.stop cs b

/-- Decidable check that a word list is ordered starting from `a`: each
word starts no earlier than the previous word's end (and no earlier than
`a` for the first word) and never runs backwards. -/
def sortedFromB (a : ℚ) : List TimedWord → Bool
  | [] => true
  | wd :: rest => decide (a ≤ wd.start) && decide (wd.start ≤ wd.stop) && sortedFromB wd.stop rest

/-- The end time reached after playing a word list that starts at `a`:
the last word's end, or `a` itself for an empty list. -/
def wordsEndFrom (a : ℚ) : List TimedWord → ℚ
  | [] => a
  | wd :: rest => wordsEndFrom wd.stop rest

/-- The rendering loop of `write_srt` (`src/utils.py` lines 225-236) over
already-preprocessed cues, carried out from a given 1-based counter: each
cue prints its index, the ` --> ` time line with forced hours and comma
separator, and its text with `-->` replaced, followed by a blank line. -/
def writeSrtFrom : Nat → List Cue → String
  | _, [] => ""
  | i, c :: rest =>
      toString i ++ "\n" ++ formatTimestamp c.start true "," ++ " --> " ++
        formatTimestamp c.stop true "," ++ "\n" ++ pyReplace c.text "-->" "->" ++ "\n\n" ++
        writeSrtFrom (i + 1) rest

/-- `write_srt` applied to the cues fed to its rendering loop. -/
def writeSrt (cues : List Cue) : String :=
  writeSrtFrom 1 cues

/-- Specification-side shape of one SRT block, used to state what the SRT
renderer emits for the cue at (1-based) index `i`. -/
def srtBlock (i : Nat) (c : Cue) : String :=
  toString i ++ "\n" ++ formatTimestamp c.start true "," ++ " --> " ++
    formatTimestamp c.stop true "," ++ "\n" ++ pyReplace c.text "-->" "->" ++ "\n\n"

/-- The match attempt of `re.search('SPEAKER_(\d+)', s)` at one position:
the literal `SPEAKER_` followed by at least one digit, whose maximal run
is capture group 1. -/
def speakerDigitsAt (l : List Char) : Option (List Char) :=
  if "SPEAKER_".data.isPrefixOf l then
    let ds := (l.drop 8).takeWhile Char.isDigit
    if ds.isEmpty then none else some ds
  else none

/-- `re.search('SPEAKER_(\d+)', s)` (`src/utils.py` line 170): the capture
group of the leftmost match, scanning positions left to right. -/
def searchSpeakerDigits : List Char → Option (List Char)
  | [] => none
  | c :: cs =>
      match speakerDigitsAt (c :: cs) with
      | some ds => some ds
      | none => searchSpeakerDigits cs

/-- The per-segment body of `write_html` (`src/utils.py` lines 163-186).
When the segment has no `longest_speaker`, `re.search` receives `None` and
raises `TypeError` (caught, logged and re-raised by the source, so the
rendering aborts); this is modelled as an error value. -/
def writeHtmlSegment (seg : Segment) : Except String String :=
  let text := pyStrip seg.text
  match seg.longestSpeaker with
  | none => Except.error "TypeError: expected string or bytes-like object"
  | some sp =>
      let sid := match searchSpeakerDigits sp.data with
        | some ds => String.mk ds
        | none => ""
      Except.ok ("\t\t\t<div class=\"segment\">\n\t\t<span class=\"timestamp\">" ++
        formatTimestamp seg.start false "." ++ "</span>\n" ++
        "\t\t\t\t<span class=\"speaker s" ++ sid ++ "\">" ++ sid ++ "</span>\n" ++
        "\t\t\t\t<p class=\"speaker s" ++ sid ++ "\">" ++ text ++ "</p>\n" ++
        "\t\t\t</div>\n")

/-- The per-source text decoration of `transcribe_webui` (`src/app.py`
lines 291-305): with more than one source, a non-empty transcript gets two
line separators appended and is then prefixed with the source's full name
and a colon.  `os.linesep` is `"\n"`. -/
def combineSourceText (numSources : Nat) (name text : String) : String :=
  if 1 < numSources then
    let t := if 0 < text.length then text ++ "\n" ++ "\n" else text
    name ++ ":" ++ "\n" ++ t
  else text

/-- The accumulation of the combined plain text over all sources in
`transcribe_webui`, starting from the empty string. -/
def combineTexts (sources : List (String × String)) : String :=
  sources.foldl (fun acc p => acc ++ combineSourceText sources.length p.1 p.2) ""

/-- The regex class `\w` of `slugify`, modelled on the ASCII range:
letters, digits and the underscore. -/
def isWordCharPy (c : Char) : Bool :=
  c.isAlphanum ∨ c = '_'

/-- A character matched by the `[-\s]` class of `slugify`. -/
def isDashWs (c : Char) : Bool :=
  c = '-' ∨ isPySpace c

/-- `re.sub(r'[-\s]+', '-', ...)`: replace every maximal run of dashes and
whitespace by a single dash.  The flag records whether the scanner is
inside such a run. -/
def collapseDashWs : Bool → List Char → List Char
  | _, [] => []
  | inRun, c :: cs =>
      if isDashWs c then
        if inRun then collapseDashWs true cs else '-' :: collapseDashWs true cs
      else c :: collapseDashWs false cs

/-- Python `str.strip('-_')`: remove leading and trailing dashes and
underscores. -/
def stripDashUnderscore (l : List Char) : List Char :=
  ((l.dropWhile fun c => c = '-' ∨ c = '_').reverse.dropWhile fun c =>
    c = '-' ∨ c = '_').reverse

/-- `slugify(value, allow_unicode=True)` from `src/utils.py` lines 366-380
as called by the dispatcher in `src/app.py`: lower-case, drop every
character that is not a word character, whitespace or dash, collapse runs
of whitespace and dashes to single dashes, and strip boundary dashes and
underscores.  The NFKC normalization of the `allow_unicode` branch is
modelled as the identity, which is exact on ASCII input; `str.lower` is
`Char.toLower`, exact on the ASCII range. -/
def slugify (value : String) : String :=
  let lowered := value.data.map Char.toLower
  let filtered := lowered.filter fun c => isWordCharPy c ∨ isPySpace c ∨ c = '-'
  String.mk (stripDashUnderscore (collapseDashWs false filtered))

theorem ratFloor_eq_floor (q : ℚ) : ratFloor q = ⌊q⌋ := by
  rw [ratFloor, Rat.floor_def]
  exact Int.fdiv_eq_ediv _ (Int.ofNat_nonneg _)

example : joinWords ["a", " b"] none = "a  b" := by rfl
example : joinWords ["a", " b"] (some 80) = "a b" := by rfl
example : joinWords ["aaa", " bbb"] (some 4) = "aaa\n bbb" := by rfl
example : markWord " hi" = " <u>hi</u>" := by rfl
example : joinEntries (hlEntries ["aaa", " bbb"] 1) (some 4) = "aaa\n <u>bbb</u>" := by rfl

example : processText "a\nb" (some 5) = "a b" := by rfl
example : processText " a" (some 5) = " a" := by rfl
example : processText "a " (some 5) = "a" := by rfl
example : processText "a  b" (some 5) = "a  b" := by rfl
example : processText "aaa bbb" (some 3) = "aaa\nbbb" := by rfl
example : processText "aaaaaa" (some 4) = "aaaa\naa" := by rfl
example : processText "ab-cd" (some 3) = "ab-\ncd" := by rfl
example : processText "x y z" (some 1) = "x\ny\nz" := by rfl
example : processText "  " (some 5) = "" := by rfl
example : processText "hello world" none = "hello world" := by rfl

example : slugify "  Hello,  World__ " = "hello-world" := by rfl
example : slugify "01_Song Title (live).mp3" = "01_song-title-livemp3" := by rfl

example : formatTimestamp 0 false "." = "00:00.000" := by decide
example : formatTimestamp 0 true "." = "00:00:00.000" := by decide
example : formatTimestamp (3661.2005 : ℚ) true "." = "01:01:01.200" := by decide
example : formatTimestamp (3661.2005 : ℚ) true "," = "01:01:01,200" := by decide
example : pyReplace "a --> b --> c" "-->" "->" = "a -> b -> c" := by rfl
example : pyReplace "--->" "-->" "->" = "-->" := by rfl
example : pyStrip "  hi\t " = "hi" := by rfl

example : (preprocessSegment ⟨0, 2, "a", [⟨0, 1, " a"⟩], none⟩ (some 80) true).1 =
    [⟨0, 1, " <u>a</u>"⟩, ⟨1, 2, " a"⟩] := by decide
example : tilesFromB 0 (preprocessSegment ⟨0, 2, "a", [⟨0, 1, " a"⟩], none⟩ (some 80) true).1 2 = true := by decide
example : (preprocessSegment ⟨0, 1, "hello", [⟨0, 1, " hello"⟩], some "SPEAKER_00"⟩ none false).1 =
    [⟨0, 1, "(SPEAKER_00)  hello"⟩] := by decide
example : (preprocessSegment ((preprocessSegment ⟨0, 1, "hello", [⟨0, 1, " hello"⟩], some "SPEAKER_00"⟩ none false).2) none false).1 =
    [⟨0, 1, "(SPEAKER_00) (SPEAKER_00)  hello"⟩] := by decide
example : writeHtmlSegment ⟨0, 1, "hi", [], none⟩ = Except.error "TypeError: expected string or bytes-like object" := by rfl
example : (writeHtmlSegment ⟨0, 1, "hi", [], some "SPEAKER_03"⟩).isOk = true := by rfl
example : combineTexts [("a", "x"), ("b", "y")] = "a:\nx\n\nb:\ny\n\n" := by rfl
example : writeSrt [⟨0, 1, "x --> y"⟩] = "1\n00:00:00,000 --> 00:00:01,000\nx -> y\n\n" := by decide

/-! Helper lemmas. -/

theorem strJoin_foldl (l : List String) (init : String) :
    List.foldl (· ++ ·) init l = init ++ String.join l := by
  induction l generalizing init with
  | nil => simp [String.join]
  | cons a l ih =>
      simp only [List.foldl, String.join] at *
      rw [ih ("" ++ a), ih (init ++ a), String.append_assoc]
      simp

theorem strJoin_cons (a : String) (l : List String) :
    String.join (a :: l) = a ++ String.join l := by
  simpa [String.join] using strJoin_foldl l ("" ++ a)

theorem string_length_pos_of_ne_empty {s : String} (h : s ≠ "") : 0 < s.length := by
  rcases s with ⟨l⟩
  cases l with
  | nil => exact absurd rfl h
  | cons c cs => simp [String.length]

theorem pyRound_nearest (x : ℚ) : |(pyRound x : ℚ) - x| ≤ mkRat 1 2 := by
  have hmk : (mkRat 1 2 : ℚ) = 1 / 2 := by
    rw [Rat.mkRat_eq_divInt, Rat.divInt_eq_div]; norm_num
  have hfl : (⌊x⌋ : ℚ) ≤ x := Int.floor_le x
  have hfu : x < ⌊x⌋ + 1 := Int.lt_floor_add_one x
  simp only [pyRound, ratFloor_eq_floor, hmk]
  split_ifs with h1 h2 h3 <;> rw [abs_le] <;> constructor <;> push_cast <;> linarith

/-- C4 counterexample: with the two sources named `a` and `b` carrying the
non-empty transcripts `x` and `y`, the combined text produced by the
dispatch loop is not the claimed `"a:\nx\n\nb:\ny"` (the loop also appends
a blank-line separator after the final source). -/
theorem C4_combined_text_missing_trailing_separator :
    combineTexts [("a", "x"), ("b", "y")] ≠ "a:" ++ "\n" ++ "x" ++ "\n" ++ "\n" ++ "b:" ++ "\n" ++ "y" := by
  decide

/-- C4 amended: for exactly two sources with non-empty transcripts the
combined plain text is `"<name1>:\n<text1>\n\n<name2>:\n<text2>\n\n"`, i.e.
the claimed shape followed by one more blank-line separator after the last
source. -/
theorem C4_combined_text_amended (n1 t1 n2 t2 : String) (h1 : t1 ≠ "") (h2 : t2 ≠ "") :
    combineTexts [(n1, t1), (n2, t2)] =
      n1 ++ ":" ++ "\n" ++ t1 ++ "\n" ++ "\n" ++ n2 ++ ":" ++ "\n" ++ t2 ++ "\n" ++ "\n" := by
  have p1 : 0 < t1.length := string_length_pos_of_ne_empty h1
  have p2 : 0 < t2.length := string_length_pos_of_ne_empty h2
  apply String.ext
  simp [combineTexts, combineSourceText, p1, p2]

/-- C4 amended witness. -/
theorem C4_combined_text_amended_witness :
    ("x" : String) ≠ "" ∧ ("y" : String) ≠ "" ∧
    combineTexts [("a", "x"), ("b", "y")] =
      "a" ++ ":" ++ "\n" ++ "x" ++ "\n" ++ "\n" ++ "b" ++ ":" ++ "\n" ++ "y" ++ "\n" ++ "\n" :=
  ⟨by decide, by decide, C4_combined_text_amended "a" "x" "b" "y" (by decide) (by decide)⟩

/-- C5: a segment without a `longest_speaker` label makes `write_html`
raise (the `re.search` call receives `None`), aborting the rendering,
whereas the digit suffix is parsed and rendered when a label is present.
The claim that such a segment is rendered with an empty speaker-class
suffix does not hold on the code. -/
theorem C5_missing_speaker_aborts_html :
    writeHtmlSegment ⟨0, 1, "hi", [], none⟩ =
      Except.error "TypeError: expected string or bytes-like object" ∧
    writeHtmlSegment ⟨0, 1, "hi", [], some "SPEAKER_03"⟩ =
      Except.ok ("\t\t\t<div class=\"segment\">\n\t\t<span class=\"timestamp\">00:00.000</span>\n" ++
        "\t\t\t\t<span class=\"speaker s03\">03</span>\n" ++
        "\t\t\t\t<p class=\"speaker s03\">hi</p>\n" ++
        "\t\t\t</div>\n") := by
  exact ⟨rfl, rfl⟩

/-- C2: the caption synthesizer is not mutation-free.  For the segment
`[0, 1]` with one timed word and the speaker label `SPEAKER_00`, one
preprocessing pass changes the segment (the speaker pseudo-word is
inserted into the segment's own word list), and a second rendering pass
over the returned segment produces different cues than the first, so
repeated rendering as done by `write_result` does not yield identical
output. -/
theorem C2_preprocessor_mutates_segment :
    (preprocessSegment ⟨0, 1, "hello", [⟨0, 1, " hello"⟩], some "SPEAKER_00"⟩ none false).2 ≠
      ⟨0, 1, "hello", [⟨0, 1, " hello"⟩], some "SPEAKER_00"⟩ ∧
    (preprocessSegment
        (preprocessSegment ⟨0, 1, "hello", [⟨0, 1, " hello"⟩], some "SPEAKER_00"⟩ none false).2
        none false).1 ≠
      (preprocessSegment ⟨0, 1, "hello", [⟨0, 1, " hello"⟩], some "SPEAKER_00"⟩ none false).1 := by
  decide

/-- C3 counterexample: `format_timestamp(3661.2005)` with forced hours
yields `"01:01:01.200"`, not the claimed `"01:01:01.201"`: the scaled
value is exactly `3661200.5` and Python's `round` takes the nearest even
integer. -/
theorem C3_half_example_not_201 :
    formatTimestamp (3661.2005 : ℚ) true "." = "01:01:01.200" ∧
    formatTimestamp (3661.2005 : ℚ) true "." ≠ "01:01:01.201" := by
  constructor <;> decide

/-- C3 amended: for every non-negative seconds value `format_timestamp`
scales to milliseconds and rounds to the nearest millisecond (ties to
even, never truncating: the rounded value is within half a millisecond),
then decomposes with integer division into hours, minutes, seconds and
milliseconds that reconstruct the total; `format(0)` is `"00:00.000"`
without forced hours and `"00:00:00.000"` with them, and
`format(3661.2005)` with forced hours is `"01:01:01.200"` (half-to-even,
not half-up). -/
theorem C3_format_timestamp_amended (q : ℚ) (_hq : 0 ≤ q) :
    |(pyRound (q * 1000) : ℚ) - q * 1000| ≤ mkRat 1 2 ∧
    ((tsParts (pyRound (q * 1000)).toNat).1 * 3600000 +
      (tsParts (pyRound (q * 1000)).toNat).2.1 * 60000 +
      (tsParts (pyRound (q * 1000)).toNat).2.2.1 * 1000 +
      (tsParts (pyRound (q * 1000)).toNat).2.2.2 = (pyRound (q * 1000)).toNat ∧
      (tsParts (pyRound (q * 1000)).toNat).2.1 < 60 ∧
      (tsParts (pyRound (q * 1000)).toNat).2.2.1 < 60 ∧
      (tsParts (pyRound (q * 1000)).toNat).2.2.2 < 1000) ∧
    formatTimestamp 0 false "." = "00:00.000" ∧
    formatTimestamp 0 true "." = "00:00:00.000" ∧
    formatTimestamp (3661.2005 : ℚ) true "." = "01:01:01.200" := by
  refine ⟨pyRound_nearest _, ?_, by decide, by decide, by decide⟩
  simp only [tsParts]
  omega

/-- C3 amended witness. -/
theorem C3_format_timestamp_amended_witness :
    (0 : ℚ) ≤ 3661.2005 ∧
    (|(pyRound ((3661.2005 : ℚ) * 1000) : ℚ) - (3661.2005 : ℚ) * 1000| ≤ mkRat 1 2 ∧
    ((tsParts (pyRound ((3661.2005 : ℚ) * 1000)).toNat).1 * 3600000 +
      (tsParts (pyRound ((3661.2005 : ℚ) * 1000)).toNat).2.1 * 60000 +
      (tsParts (pyRound ((3661.2005 : ℚ) * 1000)).toNat).2.2.1 * 1000 +
      (tsParts (pyRound ((3661.2005 : ℚ) * 1000)).toNat).2.2.2 =
        (pyRound ((3661.2005 : ℚ) * 1000)).toNat ∧
      (tsParts (pyRound ((3661.2005 : ℚ) * 1000)).toNat).2.1 < 60 ∧
      (tsParts (pyRound ((3661.2005 : ℚ) * 1000)).toNat).2.2.1 < 60 ∧
      (tsParts (pyRound ((3661.2005 : ℚ) * 1000)).toNat).2.2.2 < 1000) ∧
    formatTimestamp 0 false "." = "00:00.000" ∧
    formatTimestamp 0 true "." = "00:00:00.000" ∧
    formatTimestamp (3661.2005 : ℚ) true "." = "01:01:01.200") :=
  ⟨by norm_num, C3_format_timestamp_amended (3661.2005 : ℚ) (by norm_num)⟩

theorem writeSrtFrom_eq_blocks (k : Nat) (cues : List Cue) :
    writeSrtFrom k cues = ((cues.enumFrom k).map fun p => srtBlock p.1 p.2).foldr (· ++ ·) "" := by
  induction cues generalizing k with
  | nil => rfl
  | cons c rest ih =>
      simp only [writeSrtFrom, List.enumFrom, List.map, List.foldr, srtBlock, ih (k + 1)]

/-- C6: the SRT renderer turns a list of `N` cues into exactly the
concatenation of `N` blocks in input order; the block of the cue at
1-based index `i` consists of the index line, the two timestamps with
forced hours and comma separator joined by `" --> "`, the cue text with
every occurrence of `"-->"` replaced by `"->"`, and a terminating blank
line. -/
theorem C6_srt_block_structure (cues : List Cue) :
    writeSrt cues = ((cues.enumFrom 1).map fun p => srtBlock p.1 p.2).foldr (· ++ ·) "" :=
  writeSrtFrom_eq_blocks 1 cues

theorem strJoin_singleton (a : String) : String.join [a] = a := by
  rw [strJoin_cons]
  show a ++ "" = a
  exact String.append_empty a

theorem strEntries_map_word (ws : List String) : (strEntries ws).map (·.word) = ws := by
  simp only [strEntries, List.map_map]
  rw [show ((fun x : WEntry => x.word) ∘ fun s : String => (⟨s, s.length⟩ : WEntry)) = id from
    rfl, List.map_id]

theorem strJoin_append_single (l : List String) (a : String) :
    String.join (l ++ [a]) = String.join l ++ a := by
  induction l with
  | nil => rfl
  | cons b l ih => simp only [List.cons_append, strJoin_cons, ih, String.append_assoc]

theorem joinGreedy_eq_groups (w : Int) (es : List WEntry) :
    ∀ (groups : List (List String)) (cur : List String) (curLen : Nat),
    joinGreedy w (groups.map String.join) (String.join cur) curLen es =
      (greedyGroups w groups cur curLen es).map String.join := by
  induction es with
  | nil =>
      intro groups cur curLen
      by_cases h : 0 < (String.join cur).length <;>
        simp [joinGreedy, greedyGroups, h, List.map_append]
  | cons e rest ih =>
      intro groups cur curLen
      by_cases h : 0 < curLen ∧ w < ((curLen + e.length : Nat) : Int)
      · simp only [joinGreedy, greedyGroups, if_pos h]
        have h2 := ih (groups ++ [cur]) [e.word] e.length
        simpa [List.map_append, strJoin_singleton] using h2
      · simp only [joinGreedy, greedyGroups, if_neg h]
        have h2 := ih groups (cur ++ [e.word]) (curLen + e.length)
        simpa [strJoin_append_single] using h2

theorem greedyGroups_flatten (w : Int) (es : List WEntry) :
    ∀ (groups : List (List String)) (cur : List String) (curLen : Nat),
    (∀ s ∈ cur, s ≠ "") → (∀ e ∈ es, e.word ≠ "") →
    (greedyGroups w groups cur curLen es).flatten =
      groups.flatten ++ cur ++ es.map (·.word) := by
  induction es with
  | nil =>
      intro groups cur curLen hcur _
      by_cases h : 0 < (String.join cur).length
      · simp only [greedyGroups, if_pos h, List.map_nil, List.flatten_append,
          List.flatten_cons, List.flatten_nil, List.append_nil]
      · have hc : cur = [] := by
          cases cur with
          | nil => rfl
          | cons s rest =>
              exfalso
              apply h
              have hs : 0 < s.length := string_length_pos_of_ne_empty (hcur s (by simp))
              rw [strJoin_cons]
              have := String.length_append s (String.join rest)
              omega
        subst hc
        simp only [greedyGroups, if_neg h, List.map_nil, List.append_nil]
  | cons e rest ih =>
      intro groups cur curLen hcur hes
      by_cases h : 0 < curLen ∧ w < ((curLen + e.length : Nat) : Int)
      · simp only [greedyGroups, if_pos h]
        rw [ih (groups ++ [cur]) [e.word] e.length
          (by intro s hs; simp at hs; subst hs; exact hes e (by simp))
          (fun x hx => hes x (by simp [hx]))]
        simp [List.flatten_append]
      · simp only [greedyGroups, if_neg h]
        rw [ih groups (cur ++ [e.word]) (curLen + e.length)
          (by intro s hs; rcases List.mem_append.mp hs with h1 | h1
              · exact hcur s h1
              · simp at h1; subst h1; exact hes e (by simp))
          (fun x hx => hes x (by simp [hx]))]
        simp

/-- C7 counterexample: without a width budget `__join_words` returns
`" ".join(words)`, so the tokens `["a", "b"]` come back as `"a b"` and not
as their direct concatenation `"ab"` (which a given budget produces within
a line). -/
theorem C7_nobudget_joins_with_spaces :
    joinWords ["a", "b"] none = "a b" ∧ joinWords ["a", "b"] none ≠ "ab" ∧
    joinWords ["a", "b"] (some 80) = "ab" := by
  decide

/-- C7 amended: with a `None` or negative budget `__join_words` places all
tokens on one line joined by single spaces (Python `" ".join`, not direct
concatenation); with a non-negative budget every emitted line is the
direct concatenation of a consecutive group of tokens (no separator
inserted), and for non-empty tokens the groups partition the input in
order. -/
theorem C7_join_words_amended (ws : List String) :
    joinWords ws none = " ".intercalate ws ∧
    (∀ w : Int, w < 0 → joinWords ws (some w) = " ".intercalate ws) ∧
    (∀ w : Int, 0 ≤ w → (∀ s ∈ ws, s ≠ "") →
      joinWords ws (some w) =
        "\n".intercalate ((greedyLines w (strEntries ws)).map String.join) ∧
      (greedyLines w (strEntries ws)).flatten = ws) := by
  refine ⟨?_, ?_, ?_⟩
  · simp only [joinWords, joinEntries, strEntries_map_word]
  · intro w hw
    simp only [joinWords, joinEntries, if_pos hw, strEntries_map_word]
  · intro w hw hne
    constructor
    · have hg := joinGreedy_eq_groups w (strEntries ws) [] [] 0
      simp only [List.map_nil] at hg
      simp only [joinWords, joinEntries, if_neg (not_lt.mpr hw), greedyLines]
      rw [show ("" : String) = String.join [] from rfl, hg]
    · have hp := greedyGroups_flatten w (strEntries ws) [] [] 0 (by simp)
        (by intro e he; simp only [strEntries, List.mem_map] at he
            obtain ⟨s, hs, rfl⟩ := he; exact hne s hs)
      rw [strEntries_map_word] at hp
      simpa [greedyLines] using hp

/-- C7 amended witness. -/
theorem C7_join_words_amended_witness :
    joinWords ["a", " b"] none = " ".intercalate ["a", " b"] ∧
    joinWords ["a", " b"] (some (-1)) = " ".intercalate ["a", " b"] ∧
    (joinWords ["a", " b"] (some 2) =
      "\n".intercalate ((greedyLines 2 (strEntries ["a", " b"])).map String.join) ∧
    (greedyLines 2 (strEntries ["a", " b"])).flatten = ["a", " b"]) :=
  ⟨(C7_join_words_amended ["a", " b"]).1,
   (C7_join_words_amended ["a", " b"]).2.1 (-1) (by decide),
   (C7_join_words_amended ["a", " b"]).2.2 2 (by decide) (by decide)⟩

theorem uint32_le_iff_toNat (a b : UInt32) : a ≤ b ↔ a.toNat ≤ b.toNat := Iff.rfl

theorem char_isUpper_iff (c : Char) : c.isUpper = true ↔ 65 ≤ c.toNat ∧ c.toNat ≤ 90 := by
  simp only [Char.isUpper, Bool.and_eq_true, decide_eq_true_iff]
  constructor
  · rintro ⟨h1, h2⟩
    exact ⟨(uint32_le_iff_toNat 65 c.val).mp h1, (uint32_le_iff_toNat c.val 90).mp h2⟩
  · rintro ⟨h1, h2⟩
    exact ⟨(uint32_le_iff_toNat 65 c.val).mpr h1, (uint32_le_iff_toNat c.val 90).mpr h2⟩

theorem ofNat_lower_not_upper (n : Nat) (h1 : 97 ≤ n) (h2 : n ≤ 122) :
    (Char.ofNat n).isUpper = false := by
  interval_cases n <;> decide

theorem toLower_not_upper (c : Char) : (Char.toLower c).isUpper = false := by
  by_cases h : 65 ≤ c.toNat ∧ c.toNat ≤ 90
  · rw [show Char.toLower c = Char.ofNat (c.toNat + 32) by unfold Char.toLower; simp [h]]
    exact ofNat_lower_not_upper _ (by omega) (by omega)
  · rw [show Char.toLower c = c by unfold Char.toLower; simp [h]]
    rw [← Bool.not_eq_true]
    intro hu
    exact h ((char_isUpper_iff c).mp hu)

theorem wordchar_not_space {c : Char} (h : isWordCharPy c = true) : isPySpace c = false := by
  by_contra h2
  rw [Bool.not_eq_false] at h2
  simp only [isPySpace, decide_eq_true_iff] at h2
  rcases h2 with rfl | rfl | rfl | rfl | rfl | rfl <;> exact absurd h (by decide)

theorem collapseDashWs_cons_run {d : Char} {ds : List Char} (hd : isDashWs d = true) :
    collapseDashWs true (d :: ds) = collapseDashWs true ds := by
  simp [collapseDashWs, hd]

theorem collapseDashWs_cons_start {d : Char} {ds : List Char} (hd : isDashWs d = true) :
    collapseDashWs false (d :: ds) = '-' :: collapseDashWs true ds := by
  simp [collapseDashWs, hd]

theorem collapseDashWs_cons_keep (b : Bool) {d : Char} {ds : List Char}
    (hd : isDashWs d = false) :
    collapseDashWs b (d :: ds) = d :: collapseDashWs false ds := by
  simp [collapseDashWs, hd]

theorem collapse_mem (l : List Char) :
    ∀ (b : Bool), ∀ c ∈ collapseDashWs b l, c = '-' ∨ (c ∈ l ∧ isDashWs c = false) := by
  induction l with
  | nil => intro b c hc; simp [collapseDashWs] at hc
  | cons d ds ih =>
      intro b c hc
      by_cases hd : isDashWs d = true
      · cases b with
        | true =>
            rw [collapseDashWs_cons_run hd] at hc
            rcases ih true c hc with h | ⟨h1, h2⟩
            · exact Or.inl h
            · exact Or.inr ⟨List.mem_cons_of_mem _ h1, h2⟩
        | false =>
            rw [collapseDashWs_cons_start hd] at hc
            rcases List.mem_cons.mp hc with rfl | hc2
            · exact Or.inl rfl
            · rcases ih true c hc2 with h | ⟨h1, h2⟩
              · exact Or.inl h
              · exact Or.inr ⟨List.mem_cons_of_mem _ h1, h2⟩
      · rw [Bool.not_eq_true] at hd
        rw [collapseDashWs_cons_keep b hd] at hc
        rcases List.mem_cons.mp hc with rfl | hc2
        · exact Or.inr ⟨List.mem_cons_self _ _, hd⟩
        · rcases ih false c hc2 with h | ⟨h1, h2⟩
          · exact Or.inl h
          · exact Or.inr ⟨List.mem_cons_of_mem _ h1, h2⟩

theorem collapse_true_head (l : List Char) (c : Char)
    (h : (collapseDashWs true l).head? = some c) : isDashWs c = false := by
  induction l with
  | nil => simp [collapseDashWs] at h
  | cons d ds ih =>
      by_cases hd : isDashWs d = true
      · rw [collapseDashWs_cons_run hd] at h
        exact ih h
      · rw [Bool.not_eq_true] at hd
        rw [collapseDashWs_cons_keep true hd] at h
        simp only [List.head?_cons, Option.some.injEq] at h
        subst h
        exact hd

theorem collapse_chain' (l : List Char) :
    ∀ b, List.Chain' (fun a c => ¬(a = '-' ∧ c = '-')) (collapseDashWs b l) := by
  induction l with
  | nil => intro b; simp [collapseDashWs]
  | cons d ds ih =>
      intro b
      by_cases hd : isDashWs d = true
      · cases b with
        | true => rw [collapseDashWs_cons_run hd]; exact ih true
        | false =>
            rw [collapseDashWs_cons_start hd]
            refine List.chain'_cons'.mpr ⟨?_, ih true⟩
            intro y hy
            have hnd := collapse_true_head ds y hy
            rintro ⟨-, rfl⟩
            simp [isDashWs] at hnd
      · rw [Bool.not_eq_true] at hd
        rw [collapseDashWs_cons_keep b hd]
        refine List.chain'_cons'.mpr ⟨?_, ih false⟩
        intro y _
        rintro ⟨rfl, -⟩
        simp [isDashWs] at hd

theorem head?_dropWhileP {p : Char → Bool} :
    ∀ (l : List Char) (c : Char), (l.dropWhile p).head? = some c → p c = false := by
  intro l
  induction l with
  | nil => intro c h; simp [List.dropWhile] at h
  | cons d ds ih =>
      intro c h
      by_cases hd : p d = true
      · rw [List.dropWhile_cons_of_pos hd] at h
        exact ih c h
      · rw [Bool.not_eq_true] at hd
        rw [List.dropWhile_cons_of_neg (by simp [hd])] at h
        simp only [List.head?_cons, Option.some.injEq] at h
        subst h
        exact hd

theorem getLast?_dropWhileP {p : Char → Bool} :
    ∀ (l : List Char), l.dropWhile p ≠ [] → (l.dropWhile p).getLast? = l.getLast? := by
  intro l
  induction l with
  | nil => intro h; simp [List.dropWhile] at h
  | cons d ds ih =>
      intro h
      by_cases hd : p d = true
      · rw [List.dropWhile_cons_of_pos hd] at h ⊢
        rw [ih h]
        have hds : ds ≠ [] := by
          intro he
          subst he
          simp [List.dropWhile] at h
        cases ds with
        | nil => exact absurd rfl hds
        | cons e es => simp
      · rw [Bool.not_eq_true] at hd
        rw [List.dropWhile_cons_of_neg (by simp [hd])]

theorem strip_subset {c : Char} {l : List Char} (h : c ∈ stripDashUnderscore l) : c ∈ l := by
  simp only [stripDashUnderscore, List.mem_reverse] at h
  have h1 := List.dropWhile_subset (fun c => decide (c = '-' ∨ c = '_')) h
  rw [List.mem_reverse] at h1
  exact List.dropWhile_subset _ h1

theorem strip_last {c : Char} {l : List Char}
    (h : (stripDashUnderscore l).getLast? = some c) : ¬(c = '-' ∨ c = '_') := by
  simp only [stripDashUnderscore, List.getLast?_reverse] at h
  have := head?_dropWhileP _ c h
  simpa using this

theorem strip_head {c : Char} {l : List Char}
    (h : (stripDashUnderscore l).head? = some c) : ¬(c = '-' ∨ c = '_') := by
  simp only [stripDashUnderscore, List.head?_reverse] at h
  have hne : (l.dropWhile fun c => decide (c = '-' ∨ c = '_')).reverse.dropWhile
      (fun c => decide (c = '-' ∨ c = '_')) ≠ [] := by
    intro he
    rw [he] at h
    simp at h
  rw [getLast?_dropWhileP _ hne, List.getLast?_reverse] at h
  have := head?_dropWhileP _ c h
  simpa using this

theorem strip_chain' {R : Char → Char → Prop} (hsym : ∀ a b, R a b → R b a)
    {l : List Char} (h : List.Chain' R l) : List.Chain' R (stripDashUnderscore l) := by
  have h1 : List.Chain' R (l.dropWhile fun c => decide (c = '-' ∨ c = '_')) :=
    h.suffix (List.dropWhile_suffix _)
  have h2 : List.Chain' R (l.dropWhile fun c => decide (c = '-' ∨ c = '_')).reverse :=
    List.chain'_reverse.mpr (h1.imp fun a b hab => hsym a b hab)
  have h3 := h2.suffix (List.dropWhile_suffix (fun c => decide (c = '-' ∨ c = '_')))
  exact List.chain'_reverse.mpr (h3.imp fun a b hab => hsym a b hab)

/-- C10: every slug produced for a per-source file-name prefix consists
only of word characters and dashes — no whitespace and no other
punctuation — with no two adjacent dashes (runs of whitespace and dashes
were collapsed), no leading or trailing dash or underscore, and no
uppercase letter (the lowercase conversion the spec does not mention). -/
theorem C10_slugify_normalization (value : String) :
    (∀ c ∈ (slugify value).data, isWordCharPy c = true ∨ c = '-') ∧
    (∀ c ∈ (slugify value).data, isPySpace c = false) ∧
    (∀ c ∈ (slugify value).data, c.isUpper = false) ∧
    List.Chain' (fun a c => ¬(a = '-' ∧ c = '-')) (slugify value).data ∧
    (∀ c, (slugify value).data.head? = some c → ¬(c = '-' ∨ c = '_')) ∧
    (∀ c, (slugify value).data.getLast? = some c → ¬(c = '-' ∨ c = '_')) := by
  have hdata : (slugify value).data =
      stripDashUnderscore (collapseDashWs false
        ((value.data.map Char.toLower).filter fun c =>
          decide (isWordCharPy c = true ∨ isPySpace c = true ∨ c = '-'))) := by
    rfl
  have hword : ∀ c ∈ (slugify value).data, isWordCharPy c = true ∨ c = '-' := by
    intro c hc
    rw [hdata] at hc
    have hc2 := strip_subset hc
    rcases collapse_mem _ false c hc2 with h | ⟨h1, h2⟩
    · exact Or.inr h
    · have h3 := (List.mem_filter.mp h1).2
      simp only [decide_eq_true_iff] at h3
      simp only [isDashWs, Bool.decide_or, Bool.or_eq_false_iff, decide_eq_false_iff_not] at h2
      rcases h3 with h3 | h3 | h3
      · exact Or.inl h3
      · exact absurd h3 (by simpa using h2.2)
      · exact absurd h3 h2.1
  refine ⟨hword, ?_, ?_, ?_, ?_, ?_⟩
  · intro c hc
    rcases hword c hc with h | rfl
    · exact wordchar_not_space h
    · decide
  · intro c hc
    rw [hdata] at hc
    have hc2 := strip_subset hc
    rcases collapse_mem _ false c hc2 with rfl | ⟨h1, -⟩
    · decide
    · have h3 := (List.mem_filter.mp h1).1
      rcases List.mem_map.mp h3 with ⟨d, -, rfl⟩
      exact toLower_not_upper d
  · rw [hdata]
    exact strip_chain' (fun a b hab hc => hab ⟨hc.2, hc.1⟩) (collapse_chain' _ false)
  · intro c hc
    rw [hdata] at hc
    exact strip_head hc
  · intro c hc
    rw [hdata] at hc
    exact strip_last hc

theorem expandTabsAux_id {l : List Char} (h : ∀ c ∈ l, c ≠ '\t') :
    ∀ col, expandTabsAux 4 col l = l := by
  induction l with
  | nil => intro col; rfl
  | cons c cs ih =>
      intro col
      have hc : c ≠ '\t' := h c (by simp)
      by_cases hn : c = '\n' ∨ c = '\r'
      · simp only [expandTabsAux, if_neg hc, if_pos hn]
        rw [ih (fun x hx => h x (by simp [hx])) 0]
      · simp only [expandTabsAux, if_neg hc, if_neg hn]
        rw [ih (fun x hx => h x (by simp [hx])) (col + 1)]

theorem replaceWs_id {l : List Char} (h : ∀ c ∈ l, isPySpace c = true → c = ' ') :
    replaceWs l = l := by
  unfold replaceWs
  conv_rhs => rw [← List.map_id l]
  apply List.map_congr_left
  intro c hc
  by_cases hs : isPySpace c = true
  · simp only [id, if_pos hs]
    exact (h c hc hs).symm
  · rw [Bool.not_eq_true] at hs
    simp [hs]

theorem splitChunksAux_flatten : ∀ (l cur : List Char),
    (splitChunksAux cur l).flatten = cur.reverse ++ l := by
  intro l
  induction l with
  | nil =>
      intro cur
      by_cases hc : cur.isEmpty
      · rw [List.isEmpty_iff] at hc
        subst hc
        simp [splitChunksAux]
      · simp [splitChunksAux, hc]
  | cons c cs ih =>
      intro cur
      match cur with
      | [] => simpa [splitChunksAux] using ih [c]
      | d :: ds =>
          by_cases hcls : isPySpace c = isPySpace d
          · simp only [splitChunksAux, if_pos hcls]
            rw [ih (c :: (d :: ds))]
            simp
          · simp only [splitChunksAux, if_neg hcls]
            rw [List.flatten_cons, ih [c]]
            simp

theorem splitChunksAux_ne_nil : ∀ (l cur : List Char),
    ∀ ch ∈ splitChunksAux cur l, ch ≠ [] := by
  intro l
  induction l with
  | nil =>
      intro cur ch hch
      by_cases hc : cur.isEmpty
      · simp [splitChunksAux, hc] at hch
      · have hc2 : cur ≠ [] := by
          intro he
          subst he
          simp at hc
        simp only [splitChunksAux] at hch
        rw [if_neg hc, List.mem_singleton] at hch
        subst hch
        simp [hc2]
  | cons c cs ih =>
      intro cur ch hch
      match cur with
      | [] => exact ih [c] ch (by simpa [splitChunksAux] using hch)
      | d :: ds =>
          by_cases hcls : isPySpace c = isPySpace d
          · simp only [splitChunksAux, if_pos hcls] at hch
            exact ih (c :: d :: ds) ch hch
          · simp only [splitChunksAux, if_neg hcls] at hch
            rcases List.mem_cons.mp hch with rfl | hch2
            · simp
            · exact ih [c] ch hch2

theorem innerFill_all (w : Int) : ∀ (chunks : List (List Char)) (curLen : Nat),
    ((curLen + ((chunks.map List.length).sum) : Nat) : Int) ≤ w →
    innerFill w curLen chunks = (chunks, curLen + (chunks.map List.length).sum, []) := by
  intro chunks
  induction chunks with
  | nil => intro curLen h; simp [innerFill]
  | cons c cs ih =>
      intro curLen h
      have hfit : ((curLen + c.length : Nat) : Int) ≤ w := by
        simp only [List.map_cons, List.sum_cons] at h
        have : (curLen + c.length : Nat) ≤ curLen + (c.length + (cs.map List.length).sum) := by
          omega
        calc ((curLen + c.length : Nat) : Int)
            ≤ ((curLen + (c.length + (cs.map List.length).sum) : Nat) : Int) := by
              exact_mod_cast this
          _ ≤ w := h
      simp only [innerFill, if_pos hfit]
      rw [ih (curLen + c.length) (by simp only [List.map_cons, List.sum_cons] at h ⊢; push_cast at h ⊢; linarith)]
      simp [Nat.add_assoc]

theorem wrapOuter_nil (w : Int) (f : Nat) (b : Bool) : wrapOuter w f b [] = [] := by
  cases f <;> rfl

theorem pyWrap_single {l : List Char} (w : Int) (hne : l ≠ [])
    (hlen : (l.length : Int) ≤ w)
    (hws : ∀ c ∈ l, isPySpace c = true → c = ' ')
    (hlast : ∀ c, l.getLast? = some c → c ≠ ' ') :
    pyWrap l w = [l] := by
  have ht : ∀ c ∈ l, c ≠ '\t' := by
    intro c hc he
    subst he
    exact absurd (hws '\t' hc (by decide)) (by decide)
  have hstep : replaceWs (expandTabs l) = l := by
    rw [expandTabs, expandTabsAux_id ht 0, replaceWs_id hws]
  have hflat : (splitChunks l).flatten = l := by
    simpa [splitChunks] using splitChunksAux_flatten l []
  have hnonempty : ∀ ch ∈ splitChunks l, ch ≠ [] :=
    fun ch hch => splitChunksAux_ne_nil l [] ch hch
  have hchne : splitChunks l ≠ [] := by
    intro h0
    rw [h0] at hflat
    exact hne hflat.symm
  have hsum : ((splitChunks l).map List.length).sum = l.length := by
    conv_rhs => rw [← hflat]
    rw [List.length_flatten]
  obtain ⟨init, lc, hconcat⟩ := (List.eq_nil_or_concat (splitChunks l)).resolve_left hchne
  have hlcne : lc ≠ [] := hnonempty lc (by simp [hconcat])
  obtain ⟨il, cl, hlc⟩ := (List.eq_nil_or_concat lc).resolve_left hlcne
  have hlastl : l.getLast? = some cl := by
    rw [← hflat, hconcat, hlc]
    simp
  have hclmem : cl ∈ l := by
    rw [← hflat, hconcat, hlc]
    simp
  have hwsf : isWsChunk lc = false := by
    by_contra hb
    rw [Bool.not_eq_false, isWsChunk, List.all_eq_true] at hb
    exact hlast cl hlastl (hws cl hclmem (hb cl (by simp [hlc])))
  obtain ⟨c0, cs, hcons⟩ : ∃ c0 cs, splitChunks l = c0 :: cs := by
    cases h : splitChunks l with
    | nil => exact absurd h hchne
    | cons a b => exact ⟨a, b, rfl⟩
  have hfill := innerFill_all w (splitChunks l) 0
    (by rw [hsum]; simpa using hlen)
  have hgl : (c0 :: cs).getLast? = some lc := by
    rw [← hcons, hconcat]
    simp
  rw [pyWrap, hstep, hcons]
  rw [hcons] at hfill hflat
  simp [wrapOuter, hfill, hgl, hwsf, wrapOuter_nil, hflat]

/-- C8 counterexample: the text `"a\nb"` has length 3, well within a width
budget of 5, yet `process_text` returns `"a b"`: `textwrap.wrap` replaces
the newline with a space before wrapping, so already-short text is not
always returned unchanged. -/
theorem C8_short_text_not_returned_unchanged :
    ("a\nb" : String).length ≤ 5 ∧ processText "a\nb" (some 5) = "a b" ∧
    processText "a\nb" (some 5) ≠ "a\nb" := by
  refine ⟨by decide, by decide, by decide⟩

/-- C8 amended: `process_text` with no budget (`None` or negative) returns
the input unmodified, and it returns already-short text unchanged provided
the text survives `textwrap`'s whitespace normalization untouched: every
whitespace character in it is a plain space and it does not end in a
space (a trailing whitespace chunk is dropped; leading spaces are kept on
the first line).  The general already-short claim fails for other texts. -/
theorem C8_process_text_amended (text : String) :
    processText text none = text ∧
    (∀ w : Int, w < 0 → processText text (some w) = text) ∧
    (∀ w : Int, 0 < w → (text.length : Int) ≤ w →
      (∀ c ∈ text.data, isPySpace c = true → c = ' ') →
      (∀ c, text.data.getLast? = some c → c ≠ ' ') →
      processText text (some w) = text) := by
  refine ⟨rfl, ?_, ?_⟩
  · intro w hw
    simp [processText, hw]
  · intro w hw hlen hws hlast
    by_cases hne : text.data = []
    · have h0 : text = "" := by
        cases text with
        | mk d => simp only at hne; rw [hne]
      subst h0
      simp only [processText, if_neg (not_lt.mpr hw.le)]
      rfl
    · simp only [processText, if_neg (not_lt.mpr hw.le)]
      rw [pyWrap_single w hne (by exact_mod_cast hlen) hws hlast]
      show "\n".intercalate [String.mk text.data] = text
      cases text with
      | mk d => rfl

/-- C8 amended witness. -/
theorem C8_process_text_amended_witness :
    processText "ab cd" none = "ab cd" ∧
    processText "ab cd" (some (-2)) = "ab cd" ∧
    processText "ab cd" (some 80) = "ab cd" :=
  ⟨(C8_process_text_amended "ab cd").1,
   (C8_process_text_amended "ab cd").2.1 (-2) (by decide),
   (C8_process_text_amended "ab cd").2.2 80 (by decide) (by decide)
     (by decide) (by decide)⟩

theorem markWord_ne_empty (s : String) : markWord s ≠ "" := by
  intro h
  have h2 := congrArg String.length h
  simp only [markWord, String.length_append] at h2
  have h3 : ("<u>" : String).length = 3 := rfl
  have h4 : ("" : String).length = 0 := rfl
  rw [h3, h4] at h2
  omega

theorem strJoin_pos_iff {cur : List String} (h : ∀ s ∈ cur, s ≠ "") :
    0 < (String.join cur).length ↔ cur ≠ [] := by
  cases cur with
  | nil =>
      constructor
      · intro h0
        exact absurd h0 (by decide)
      · intro h0
        exact absurd rfl h0
  | cons s rest =>
      rw [strJoin_cons, String.length_append]
      have := string_length_pos_of_ne_empty (h s (by simp))
      constructor
      · intro
        simp
      · intro
        omega

theorem greedyGroups_sizes (w : Int) :
    ∀ (es1 es2 : List WEntry) (groups1 groups2 : List (List String))
      (cur1 cur2 : List String) (curLen : Nat),
    es1.map (·.length) = es2.map (·.length) →
    (∀ e ∈ es1, e.word ≠ "") → (∀ e ∈ es2, e.word ≠ "") →
    (∀ s ∈ cur1, s ≠ "") → (∀ s ∈ cur2, s ≠ "") →
    cur1.length = cur2.length →
    groups1.map List.length = groups2.map List.length →
    (greedyGroups w groups1 cur1 curLen es1).map List.length =
      (greedyGroups w groups2 cur2 curLen es2).map List.length := by
  intro es1
  induction es1 with
  | nil =>
      intro es2 groups1 groups2 cur1 cur2 curLen hmap _ _ hc1 hc2 hclen hg
      have hes2 : es2 = [] := by
        cases es2 with
        | nil => rfl
        | cons x xs => simp at hmap
      subst hes2
      simp only [greedyGroups]
      by_cases h1 : 0 < (String.join cur1).length
      · have h2 : 0 < (String.join cur2).length := by
          rw [strJoin_pos_iff hc2]
          rw [strJoin_pos_iff hc1] at h1
          intro he
          subst he
          simp at hclen
          exact h1 hclen
        rw [if_pos h1, if_pos h2]
        simp [hg, hclen]
      · have h2 : ¬ 0 < (String.join cur2).length := by
          rw [strJoin_pos_iff hc2]
          rw [strJoin_pos_iff hc1] at h1
          intro hne2
          apply h1
          intro he
          subst he
          simp at hclen
          exact hne2 (List.eq_nil_of_length_eq_zero hclen.symm)
        rw [if_neg h1, if_neg h2]
        exact hg
  | cons e1 r1 ih =>
      intro es2 groups1 groups2 cur1 cur2 curLen hmap he1 he2 hc1 hc2 hclen hg
      cases es2 with
      | nil => simp at hmap
      | cons e2 r2 =>
          simp only [List.map_cons, List.cons.injEq] at hmap
          obtain ⟨hlen, hrest⟩ := hmap
          simp only [greedyGroups, hlen]
          by_cases hcond : 0 < curLen ∧ w < ((curLen + e2.length : Nat) : Int)
          · rw [if_pos hcond, if_pos hcond]
            exact ih r2 (groups1 ++ [cur1]) (groups2 ++ [cur2]) [e1.word] [e2.word] e2.length
              hrest (fun x hx => he1 x (by simp [hx])) (fun x hx => he2 x (by simp [hx]))
              (by intro s hs; rw [List.mem_singleton] at hs; subst hs; exact he1 e1 (by simp))
              (by intro s hs; rw [List.mem_singleton] at hs; subst hs; exact he2 e2 (by simp))
              (by simp)
              (by simp [hg, hclen])
          · rw [if_neg hcond, if_neg hcond]
            exact ih r2 groups1 groups2 (cur1 ++ [e1.word]) (cur2 ++ [e2.word])
              (curLen + e2.length)
              hrest (fun x hx => he1 x (by simp [hx])) (fun x hx => he2 x (by simp [hx]))
              (by intro s hs
                  rcases List.mem_append.mp hs with h | h
                  · exact hc1 s h
                  · rw [List.mem_singleton] at h; subst h; exact he1 e1 (by simp))
              (by intro s hs
                  rcases List.mem_append.mp hs with h | h
                  · exact hc2 s h
                  · rw [List.mem_singleton] at h; subst h; exact he2 e2 (by simp))
              (by simp [hclen])
              hg

theorem hlEntries_lengths (tws : List String) (i : Nat) :
    (hlEntries tws i).map (·.length) = tws.map String.length := by
  simp only [hlEntries, List.map_map]
  rw [show ((fun e : WEntry => e.length) ∘ fun p : Nat × String =>
      (⟨if p.1 = i then markWord p.2 else p.2, p.2.length⟩ : WEntry)) =
    (String.length ∘ Prod.snd) from rfl]
  rw [← List.map_map, List.enum_map_snd]

theorem strEntries_lengths (tws : List String) :
    (strEntries tws).map (·.length) = tws.map String.length := by
  simp only [strEntries, List.map_map]
  rfl

theorem hlEntries_word_ne_empty {tws : List String} (hne : ∀ s ∈ tws, s ≠ "")
    (i : Nat) : ∀ e ∈ hlEntries tws i, e.word ≠ "" := by
  intro e he
  simp only [hlEntries, List.mem_map] at he
  obtain ⟨p, hp, rfl⟩ := he
  have hmem : p.2 ∈ tws := by
    have h1 : p.2 ∈ tws.enum.map Prod.snd := List.mem_map_of_mem _ hp
    rwa [List.enum_map_snd] at h1
  by_cases hpi : p.1 = i
  · simp only [if_pos hpi]
    exact markWord_ne_empty p.2
  · simp only [if_neg hpi]
    exact hne p.2 hmem

/-- C9 counterexample: for the single word `"a"` highlighted at index 0,
the display length recorded for re-wrapping is 1 — the length of the
original word — while the markup-included rendered form `"<u>a</u>"` has
length 8, so the claim that the re-wrap length equals the full
markup-included length is false (the source's own comment says the tags
must not be counted). -/
theorem C9_rewrap_length_excludes_markup :
    (hlEntries ["a"] 0).map (fun e => e.length) = [1] ∧
    (markWord "a").length = 8 ∧
    (hlEntries ["a"] 0).map (fun e => e.length) ≠ [(markWord "a").length] := by
  refine ⟨by decide, by decide, by decide⟩

/-- C9 amended: in every highlight cue the emphasis markup wraps only the
leading-whitespace-stripped remainder of the highlighted word, and the
display length used when re-wrapping is the word's original
markup-excluded length (`len(word)`), identical to the length used for the
plain text; therefore, for non-empty words, the greedy packing puts the
same number of words on each line for every highlight cue as for the
non-highlighted wrapped text, so the line-break positions coincide. -/
theorem C9_highlight_line_breaks_amended (tws : List String) (i : Nat) (w : Int)
    (hne : ∀ s ∈ tws, s ≠ "") :
    (∀ s : String, markWord s =
      String.mk (s.data.takeWhile isPySpace) ++ "<u>" ++
        String.mk (s.data.dropWhile isPySpace) ++ "</u>") ∧
    (hlEntries tws i).map (·.length) = (strEntries tws).map (·.length) ∧
    (greedyLines w (hlEntries tws i)).map List.length =
      (greedyLines w (strEntries tws)).map List.length ∧
    (0 ≤ w → joinEntries (hlEntries tws i) (some w) =
      "\n".intercalate ((greedyLines w (hlEntries tws i)).map String.join)) := by
  refine ⟨fun s => rfl, ?_, ?_, ?_⟩
  · rw [hlEntries_lengths, strEntries_lengths]
  · unfold greedyLines
    exact greedyGroups_sizes w (hlEntries tws i) (strEntries tws) [] [] [] [] 0
      (by rw [hlEntries_lengths, strEntries_lengths])
      (hlEntries_word_ne_empty hne i)
      (by intro e he
          simp only [strEntries, List.mem_map] at he
          obtain ⟨s, hs, rfl⟩ := he
          exact hne s hs)
      (by simp) (by simp) rfl rfl
  · intro hw
    have hg := joinGreedy_eq_groups w (hlEntries tws i) [] [] 0
    simp only [List.map_nil] at hg
    simp only [joinEntries, if_neg (not_lt.mpr hw), greedyLines]
    rw [show ("" : String) = String.join [] from rfl, hg]

/-- C9 amended witness. -/
theorem C9_highlight_line_breaks_amended_witness :
    (∀ s : String, markWord s =
      String.mk (s.data.takeWhile isPySpace) ++ "<u>" ++
        String.mk (s.data.dropWhile isPySpace) ++ "</u>") ∧
    (hlEntries ["aa", " bb"] 0).map (·.length) = (strEntries ["aa", " bb"]).map (·.length) ∧
    (greedyLines 3 (hlEntries ["aa", " bb"] 0)).map List.length =
      (greedyLines 3 (strEntries ["aa", " bb"])).map List.length ∧
    (0 ≤ (3 : Int) → joinEntries (hlEntries ["aa", " bb"] 0) (some 3) =
      "\n".intercalate ((greedyLines 3 (hlEntries ["aa", " bb"] 0)).map String.join)) :=
  C9_highlight_line_breaks_amended ["aa", " bb"] 0 3 (by decide)

theorem hlLoopGo_tiles (textWords : List String) (mw : Option Int) (subText : String)
    (subStop : ℚ) :
    ∀ (words : List TimedWord) (last : ℚ) (i : Nat),
    sortedFromB last words = true →
    wordsEndFrom last words ≤ subStop →
    tilesFromB last (hlLoopGo textWords mw subText subStop last i words) subStop = true := by
  intro words
  induction words with
  | nil =>
      intro last i _ hend
      simp only [wordsEndFrom] at hend
      by_cases hlast : last ≠ subStop
      · simp only [hlLoopGo, if_pos hlast, tilesFromB]
        simp [hend]
      · rw [not_not] at hlast
        simp only [hlLoopGo, if_neg (not_not.mpr hlast)]
        simp [tilesFromB, hlast]
  | cons wd rest ih =>
      intro last i hsort hend
      simp only [sortedFromB, Bool.and_eq_true, decide_eq_true_iff] at hsort
      obtain ⟨⟨h1, h2⟩, h3⟩ := hsort
      simp only [wordsEndFrom] at hend
      have hrec := ih wd.stop (i + 1) h3 hend
      by_cases hgap : last ≠ wd.start
      · simp only [hlLoopGo, if_pos hgap, List.cons_append, List.nil_append, tilesFromB]
        simp [h1, h2, hrec]
      · rw [not_not] at hgap
        simp only [hlLoopGo, if_neg (not_not.mpr hgap), List.nil_append]
        simp [tilesFromB, hgap, h2, hrec]

theorem hlLoopGo_length (textWords : List String) (mw : Option Int) (subText : String)
    (subStop : ℚ) :
    ∀ (words : List TimedWord) (last : ℚ) (i : Nat),
    (hlLoopGo textWords mw subText subStop last i words).length ≤ 2 * words.length + 1 := by
  intro words
  induction words with
  | nil =>
      intro last i
      by_cases hlast : last ≠ subStop
      · simp [hlLoopGo, if_pos hlast]
      · simp [hlLoopGo, hlast]
  | cons wd rest ih =>
      intro last i
      have hrec := ih wd.stop (i + 1)
      by_cases hgap : last ≠ wd.start
      · simp only [hlLoopGo, if_pos hgap, List.cons_append, List.nil_append,
          List.length_cons, List.length_append, List.length_singleton]
        omega
      · simp only [hlLoopGo, if_neg hgap, List.nil_append, List.length_cons]
        omega

/-- C1 counterexample: the segment `[0, 2]` with the single word `" a"`
timed `[0, 1]` (ordered, within bounds, no speaker label) produces exactly
2 cues under highlighting — the highlight cue `[0, 1]` and the final
catch-up cue `[1, 2]` — so the number of emitted cues is even, not odd as
claimed; the cues do tile the segment span exactly. -/
theorem C1_cue_count_not_odd :
    (preprocessSegment ⟨0, 2, "a", [⟨0, 1, " a"⟩], none⟩ (some 80) true).1.length = 2 ∧
    ¬ Odd (preprocessSegment ⟨0, 2, "a", [⟨0, 1, " a"⟩], none⟩ (some 80) true).1.length ∧
    tilesFromB 0 (preprocessSegment ⟨0, 2, "a", [⟨0, 1, " a"⟩], none⟩ (some 80) true).1 2
      = true := by
  have h : (preprocessSegment ⟨0, 2, "a", [⟨0, 1, " a"⟩], none⟩ (some 80) true).1.length = 2 := by
    decide
  refine ⟨h, ?_, by decide⟩
  rw [h, Nat.odd_iff]
  decide

/-- C1 amended: for every segment with a non-empty, ordered word list
whose spans stay inside `[segment.start, segment.end]`, no speaker label,
highlighting enabled and a non-negative width budget (the configuration
the application uses; a `None` budget would make the highlight branch
raise `TypeError` in `" ".join`), the emitted cues tile
`[segment.start, segment.end]` exactly — each cue starts where the
previous one ended, never runs backwards, the first starts at the segment
start and the last ends at the segment end — and there are at most
`2*len(words) + 1` of them; the cue count need not be odd. -/
theorem C1_highlight_cues_amended (seg : Segment) (w : Int) (_hw : 0 ≤ w)
    (hsp : seg.longestSpeaker = none)
    (hwords : seg.words ≠ [])
    (hsorted : sortedFromB seg.start seg.words = true)
    (hend : wordsEndFrom seg.start seg.words ≤ seg.stop) :
    tilesFromB seg.start (preprocessSegment seg (some w) true).1 seg.stop = true ∧
    (preprocessSegment seg (some w) true).1.length ≤ 2 * seg.words.length + 1 := by
  have hni : seg.words.isEmpty = false := by
    cases hw2 : seg.words with
    | nil => exact absurd hw2 hwords
    | cons a b => rfl
  have hcues : (preprocessSegment seg (some w) true).1 =
      hlLoopGo (seg.words.map (·.word)) (some w)
        (joinWords (seg.words.map (·.word)) (some w)) seg.stop seg.start 0 seg.words := by
    simp [preprocessSegment, hni, hsp]
  rw [hcues]
  exact ⟨hlLoopGo_tiles _ _ _ _ seg.words seg.start 0 hsorted hend,
    hlLoopGo_length _ _ _ _ seg.words seg.start 0⟩

/-- C1 amended witness. -/
theorem C1_highlight_cues_amended_witness :
    (0 : Int) ≤ 80 ∧
    (tilesFromB (0 : ℚ)
      (preprocessSegment ⟨0, 2, "a", [⟨0, 1, " a"⟩, ⟨1, 2, " b"⟩], none⟩ (some 80) true).1 2
        = true ∧
    (preprocessSegment ⟨0, 2, "a", [⟨0, 1, " a"⟩, ⟨1, 2, " b"⟩], none⟩ (some 80) true).1.length ≤
      2 * ([⟨0, 1, " a"⟩, ⟨1, 2, " b"⟩] : List TimedWord).length + 1) :=
  ⟨by decide,
   C1_highlight_cues_amended ⟨0, 2, "a", [⟨0, 1, " a"⟩, ⟨1, 2, " b"⟩], none⟩ 80 (by decide)
     rfl (by decide) (by decide) (by decide)⟩
